import Mathlib

/-!
Verification of the RSA blind-signature voting protocol engine in `app.py`
(repository `vote_elec`).

The Python source is shallowly embedded: each pure helper becomes a Lean
function on `ℕ` (Python arbitrary-precision integers), each class becomes a
structure whose methods are explicit state-passing functions, and the random
draws made by the source (`secrets.randbits`, `random.randrange`) become
explicit parameters constrained by the predicates that the drawing loops
guarantee.  Byte strings (Python `str` values, always handled through their
UTF-8 encodings by `str.encode` and `bytes.decode`) are embedded as `List ℕ`
of byte values.
-/

set_option exponentiation.threshold 70000
set_option maxRecDepth 8000

namespace VoteElec

/-- Model of Python builtin three-argument `pow(b, e, m)` for a nonnegative
exponent and positive modulus, as used throughout `app.py`.  For `m > 0` the
builtin returns exactly `b ^ e % m`. -/
def powMod (b e m : ℕ) : ℕ := b ^ e % m

/-- Fuel-driven loop body of the `gcd` function of `app.py`
(`while b: a, b = b, a % b; return a`).  The fuel only discharges
termination; `b + 1` steps always suffice because the second argument
strictly decreases. -/
def gcdAux : ℕ → ℕ → ℕ → ℕ
  | 0, a, _ => a
  | _ + 1, a, 0 => a
  | fuel + 1, a, b + 1 => gcdAux fuel (b + 1) (a % (b + 1))

/-- Embedding of the `gcd` function of `app.py` (iterative Euclid). -/
def gcd (a b : ℕ) : ℕ := gcdAux (b + 1) a b

/-- Embedding of `modinv(a, m)` of `app.py`, i.e. Python `pow(a, -1, m)`:
the inverse of `a` modulo `m`.  Python computes it with extended Euclid; we
model the same value as the least witness below `m`, which is executable and
agrees with the builtin whenever the inverse exists (the only situation in
which the source calls it). -/
def modinv (a m : ℕ) : ℕ :=
  (((List.range m).find? fun x => a * x % m == 1)).getD 0

theorem gcdAux_eq_gcd (fuel a b : ℕ) (h : b < fuel) : gcdAux fuel a b = Nat.gcd b a := by
  induction fuel generalizing a b with
  | zero => omega
  | succ f ih =>
    cases b with
    | zero => simp [gcdAux]
    | succ b' =>
      rw [gcdAux, ih (b' + 1) (a % (b' + 1)) (by have := Nat.mod_lt a (show 0 < b' + 1 by omega); omega)]
      rw [Nat.gcd_succ]

/-- The embedded `gcd` agrees with mathematical gcd. -/
theorem gcd_eq_gcd (a b : ℕ) : gcd a b = Nat.gcd a b := by
  rw [gcd, gcdAux_eq_gcd (b + 1) a b (Nat.lt_succ_self b), Nat.gcd_comm]

theorem exists_inverse {a m : ℕ} (hm : 1 < m) (h : Nat.gcd a m = 1) :
    ∃ x ∈ List.range m, (a * x % m == 1) = true := by
  have hco : Nat.Coprime a m := h
  have htot : a ^ Nat.totient m ≡ 1 [MOD m] := Nat.ModEq.pow_totient hco
  have htpos : 1 ≤ Nat.totient m := Nat.totient_pos.2 (by omega)
  refine ⟨a ^ (Nat.totient m - 1) % m, List.mem_range.2 (Nat.mod_lt _ (by omega)), ?_⟩
  have : a * (a ^ (Nat.totient m - 1) % m) % m = a ^ Nat.totient m % m := by
    conv_rhs => rw [show Nat.totient m = 1 + (Nat.totient m - 1) by omega]
    rw [pow_add, pow_one, Nat.mul_mod, Nat.mod_mod_of_dvd _ (dvd_refl m), ← Nat.mul_mod]
  rw [beq_iff_eq, this]
  have := htot
  unfold Nat.ModEq at this
  rw [this, Nat.mod_eq_of_lt hm]

/-- Specification of `modinv`: whenever the source calls it (coprime
arguments, modulus above one), the returned value is a genuine modular
inverse below the modulus. -/
theorem modinv_spec {a m : ℕ} (hm : 1 < m) (h : Nat.gcd a m = 1) :
    a * modinv a m % m = 1 ∧ modinv a m < m := by
  obtain ⟨x, hx, hpx⟩ := exists_inverse hm h
  have hsome : (((List.range m).find? fun x => a * x % m == 1)).isSome := by
    rw [List.find?_isSome]; exact ⟨x, hx, hpx⟩
  obtain ⟨y, hy⟩ := Option.isSome_iff_exists.1 hsome
  have hpy : (a * y % m == 1) = true := by have := List.find?_some hy; simpa using this
  have hmem : y ∈ List.range m := List.mem_of_find?_eq_some hy
  constructor
  · rw [modinv, hy, Option.getD_some]; exact beq_iff_eq.1 hpy
  · rw [modinv, hy, Option.getD_some]; exact List.mem_range.1 hmem

/-- Fuel-driven loop of `is_prime` in `app.py` that strips factors of two
from `n - 1` (`while s % 2 == 0: r += 1; s //= 2`), returning `(r, s)`.
Fuel `s` always suffices for `s ≥ 1` because `s` halves at each step. -/
def oddPartAux : ℕ → ℕ → ℕ → ℕ × ℕ
  | 0, r, s => (r, s)
  | fuel + 1, r, s => if s % 2 = 0 then oddPartAux fuel (r + 1) (s / 2) else (r, s)

/-- Decomposition `n - 1 = 2 ^ r * s` with `s` odd, as computed by `is_prime`. -/
def oddPart (s : ℕ) : ℕ × ℕ := oddPartAux s 0 s

/-- Inner squaring loop of a Miller-Rabin round in `is_prime`
(`for _ in range(r - 1): x = pow(x, 2, n); if x == n - 1: break`), returning
true exactly when the loop breaks at `n - 1`; falling through the loop makes
`is_prime` return `False`. -/
def mrSquares (n : ℕ) : ℕ → ℕ → Bool
  | 0, _ => false
  | i + 1, x =>
    let x2 := powMod x 2 n
    if x2 = n - 1 then true else mrSquares n i x2

/-- One Miller-Rabin round of `is_prime` of `app.py` for the witness `a`. -/
def mrRound (n a : ℕ) : Bool :=
  let rs := oddPart (n - 1)
  let x := powMod a rs.2 n
  if x = 1 ∨ x = n - 1 then true else mrSquares n (rs.1 - 1) x

/-- Witness loop of `is_prime`: every drawn witness must pass its round. -/
def wsLoop (n : ℕ) (ws : List ℕ) : Bool := ws.all fun a => mrRound n a

/-- Characterization of the inputs on which `is_prime(n)` of `app.py` can
return `True`: the deterministic branches accept exactly 2 and 3 and reject
everything below 2 and every even number above 2; an odd `n ≥ 5` is accepted
when the five Miller-Rabin witnesses drawn from `randrange(2, n - 1)` all
pass their rounds. -/
def PassesIsPrime (n : ℕ) : Prop :=
  n = 2 ∨ n = 3 ∨
    (5 ≤ n ∧ n % 2 = 1 ∧
      ∃ ws : List ℕ, ws.length = 5 ∧ (∀ a ∈ ws, 2 ≤ a ∧ a < n - 1) ∧ wsLoop n ws = true)

/-- Candidate adjustment in `generate_large_prime` of `app.py`: an even draw
is bumped to the next odd number (`if num % 2 == 0: num += 1`). -/
def candidate (num : ℕ) : ℕ := if num % 2 = 0 then num + 1 else num

/-- Characterization of the values `generate_large_prime(bits)` can return:
some draw `num` of `secrets.randbits(bits)` (uniform on `[0, 2 ^ bits)`),
adjusted to odd, on which `is_prime` can return `True`.  Note that the
source never forces the top bit of the draw. -/
def IsGenerateLargePrimeOutput (bits out : ℕ) : Prop :=
  ∃ num : ℕ, num < 2 ^ bits ∧ out = candidate num ∧ PassesIsPrime out

/-- Fuel-driven embedding of Python `int.bit_length()`; fuel `n` always
suffices. -/
def bitLengthAux : ℕ → ℕ → ℕ
  | 0, _ => 0
  | fuel + 1, n => if n = 0 then 0 else bitLengthAux fuel (n / 2) + 1

/-- Embedding of Python `int.bit_length()`. -/
def bit_length (n : ℕ) : ℕ := bitLengthAux n n

theorem bitLengthAux_zero (fuel : ℕ) : bitLengthAux fuel 0 = 0 := by
  cases fuel <;> simp [bitLengthAux]

theorem bitLengthAux_lt (fuel n : ℕ) (h : n ≤ fuel) : n < 2 ^ bitLengthAux fuel n := by
  induction fuel generalizing n with
  | zero =>
    have : n = 0 := by omega
    subst this; simp [bitLengthAux]
  | succ f ih =>
    by_cases h0 : n = 0
    · subst h0; simp [bitLengthAux]
    · rw [bitLengthAux, if_neg h0, pow_succ]
      have hdiv : n / 2 ≤ f := by omega
      have := ih (n / 2) hdiv
      have hmod := Nat.div_add_mod n 2
      have : n % 2 < 2 := Nat.mod_lt n (by omega)
      omega

theorem bitLengthAux_le (fuel n : ℕ) (h : n ≤ fuel) (h0 : n ≠ 0) :
    2 ^ (bitLengthAux fuel n - 1) ≤ n ∧ 1 ≤ bitLengthAux fuel n := by
  induction fuel generalizing n with
  | zero => omega
  | succ f ih =>
    rw [bitLengthAux, if_neg h0]
    by_cases hd : n / 2 = 0
    · rw [hd, bitLengthAux_zero]
      constructor
      · simpa using Nat.one_le_iff_ne_zero.2 h0
      · omega
    · have hdiv : n / 2 ≤ f := by omega
      obtain ⟨ih1, ih2⟩ := ih (n / 2) hdiv hd
      have hrw : bitLengthAux f (n / 2) + 1 - 1 = (bitLengthAux f (n / 2) - 1) + 1 := by omega
      rw [hrw, pow_succ]
      have hmod := Nat.div_add_mod n 2
      constructor
      · omega
      · omega

theorem bit_length_lt (n : ℕ) : n < 2 ^ bit_length n := bitLengthAux_lt n n le_rfl

theorem bit_length_le (n : ℕ) (h0 : n ≠ 0) :
    2 ^ (bit_length n - 1) ≤ n ∧ 1 ≤ bit_length n := bitLengthAux_le n n le_rfl h0

/-- Embedding of the observable result of `generate_keypair` in `app.py` as
a function of its random draws: the primes `p`, `q` and the retained public
exponent `e`.  The source computes `n = p * q`, `phi = (p - 1) * (q - 1)`,
`d = modinv(e, phi)` and returns `((e, n), (d, n))`.  It performs no check
whatsoever on the relation between `p` and `q`. -/
def generate_keypair_from (p q e : ℕ) : (ℕ × ℕ) × (ℕ × ℕ) :=
  ((e, p * q), (modinv e ((p - 1) * (q - 1)), p * q))

/-- Condition on the public exponent retained by `generate_keypair`: the
loop keeps `e = 65537` when it is coprime to `phi`, and otherwise resamples
`e` from `randrange(1, phi)` until the draw is coprime to `phi`. -/
def validExponent (phi e : ℕ) : Prop :=
  (gcd 65537 phi = 1 ∧ e = 65537) ∨
    (gcd 65537 phi ≠ 1 ∧ 1 ≤ e ∧ e < phi ∧ gcd e phi = 1)

/-- Valid random draws for one run of `generate_keypair(bits)`: each prime
draw is a possible output of `generate_large_prime(bits // 2)`, and the
exponent is the one the coprimality loop retains.  Nothing requires
`p ≠ q`. -/
def ValidDraws (bits p q e : ℕ) : Prop :=
  IsGenerateLargePrimeOutput (bits / 2) p ∧ IsGenerateLargePrimeOutput (bits / 2) q ∧
    validExponent ((p - 1) * (q - 1)) e

/-- Characterization of the keypairs `generate_keypair(bits)` can return. -/
def IsKeypairOutput (bits : ℕ) (kp : (ℕ × ℕ) × (ℕ × ℕ)) : Prop :=
  ∃ p q e, ValidDraws bits p q e ∧ kp = generate_keypair_from p q e

theorem validExponent_coprime {phi e : ℕ} (h : validExponent phi e) : Nat.gcd e phi = 1 := by
  rcases h with ⟨h1, rfl⟩ | ⟨_, _, _, h4⟩
  · rw [← gcd_eq_gcd]; exact h1
  · rw [← gcd_eq_gcd]; exact h4

theorem phi_gt_one {p q : ℕ} (hp : Nat.Prime p) (hq : Nat.Prime q) (hpq : p ≠ q) :
    1 < (p - 1) * (q - 1) := by
  have h2p := hp.two_le
  have h2q := hq.two_le
  have h3 : 3 ≤ p ∨ 3 ≤ q := by omega
  rcases h3 with h | h
  · have : 2 * 1 ≤ (p - 1) * (q - 1) := Nat.mul_le_mul (by omega) (by omega)
    omega
  · have : 1 * 2 ≤ (p - 1) * (q - 1) := Nat.mul_le_mul (by omega) (by omega)
    omega

/-- Fermat step: modulo a prime `p`, raising to a power congruent to 1
modulo `p - 1` is the identity, for every residue including multiples
of `p`. -/
theorem pow_one_add_mul_modEq (p x t : ℕ) (hp : Nat.Prime p) :
    x ^ (1 + t * (p - 1)) ≡ x [MOD p] := by
  by_cases hdvd : p ∣ x
  · have hx : x ≡ 0 [MOD p] := Nat.modEq_zero_iff_dvd.2 hdvd
    calc x ^ (1 + t * (p - 1)) ≡ 0 ^ (1 + t * (p - 1)) [MOD p] := hx.pow _
      _ = 0 := zero_pow (by omega)
      _ ≡ x [MOD p] := hx.symm
  · have hco : Nat.Coprime x p := Nat.Coprime.symm ((Nat.Prime.coprime_iff_not_dvd hp).2 hdvd)
    have h1 : x ^ (p - 1) ≡ 1 [MOD p] := by
      have := Nat.ModEq.pow_totient hco
      rwa [Nat.totient_prime hp] at this
    calc x ^ (1 + t * (p - 1)) = x * (x ^ (p - 1)) ^ t := by
          rw [pow_add, pow_one, mul_comm t, pow_mul]
      _ ≡ x * 1 ^ t [MOD p] := Nat.ModEq.mul_left x (h1.pow t)
      _ = x := by rw [one_pow, mul_one]

/-- Core RSA identity: with distinct primes and `e * d ≡ 1` modulo
`(p - 1) * (q - 1)`, exponentiation by `e * d` is the identity modulo
`p * q` on all residues. -/
theorem rsa_pow (p q e d x : ℕ) (hp : Nat.Prime p) (hq : Nat.Prime q) (hpq : p ≠ q)
    (hed : e * d % ((p - 1) * (q - 1)) = 1) : x ^ (e * d) ≡ x [MOD p * q] := by
  have hrw : e * d = 1 + e * d / ((p - 1) * (q - 1)) * ((p - 1) * (q - 1)) := by
    conv_lhs => rw [← Nat.div_add_mod (e * d) ((p - 1) * (q - 1))]
    rw [hed]; ring
  have h1 : x ^ (e * d) ≡ x [MOD p] := by
    rw [hrw, show 1 + e * d / ((p - 1) * (q - 1)) * ((p - 1) * (q - 1)) =
        1 + e * d / ((p - 1) * (q - 1)) * (q - 1) * (p - 1) by ring]
    exact pow_one_add_mul_modEq p x _ hp
  have h2 : x ^ (e * d) ≡ x [MOD q] := by
    rw [hrw, show 1 + e * d / ((p - 1) * (q - 1)) * ((p - 1) * (q - 1)) =
        1 + e * d / ((p - 1) * (q - 1)) * (p - 1) * (q - 1) by ring]
    exact pow_one_add_mul_modEq q x _ hq
  exact (Nat.modEq_and_modEq_iff_modEq_mul ((Nat.coprime_primes hp hq).2 hpq)).1 ⟨h1, h2⟩

theorem keypair_ed {p q e : ℕ} (hp : Nat.Prime p) (hq : Nat.Prime q) (hpq : p ≠ q)
    (he : validExponent ((p - 1) * (q - 1)) e) :
    e * modinv e ((p - 1) * (q - 1)) % ((p - 1) * (q - 1)) = 1 :=
  (modinv_spec (phi_gt_one hp hq hpq) (validExponent_coprime he)).1

/-- Embedding of `str_to_int` of `app.py`: the big-endian integer value of
the UTF-8 bytes of the message
(`int.from_bytes(message.encode("utf-8"), byteorder="big")`).  Strings are
embedded as their UTF-8 byte lists. -/
def str_to_int (bs : List ℕ) : ℕ := bs.foldl (fun acc b => acc * 256 + b) 0

/-- Embedding of Python `int.to_bytes(len, byteorder="big")`: the `len`-byte
big-endian representation. -/
def natToBytesBE : ℕ → ℕ → List ℕ
  | 0, _ => []
  | len + 1, x => natToBytesBE len (x / 256) ++ [x % 256]

/-- UTF-8 continuation byte. -/
def isCont (b : ℕ) : Bool := decide (128 ≤ b ∧ b ≤ 191)

/-- Executable UTF-8 validity check on byte lists, following RFC 3629 as
Python `bytes.decode("utf-8")` does: ASCII, two- to four-byte sequences with
their restricted ranges, no overlong forms, no surrogates, nothing above
U+10FFFF.  This models the only way `int_to_str` of `app.py` can fail. -/
def utf8Valid : List ℕ → Bool
  | [] => true
  | b :: rest =>
    if b ≤ 127 then utf8Valid rest
    else if 194 ≤ b ∧ b ≤ 223 then
      match rest with
      | c1 :: rest2 => isCont c1 && utf8Valid rest2
      | [] => false
    else if b = 224 then
      match rest with
      | c1 :: c2 :: rest2 => decide (160 ≤ c1 ∧ c1 ≤ 191) && isCont c2 && utf8Valid rest2
      | _ => false
    else if (225 ≤ b ∧ b ≤ 236) ∨ b = 238 ∨ b = 239 then
      match rest with
      | c1 :: c2 :: rest2 => isCont c1 && isCont c2 && utf8Valid rest2
      | _ => false
    else if b = 237 then
      match rest with
      | c1 :: c2 :: rest2 => decide (128 ≤ c1 ∧ c1 ≤ 159) && isCont c2 && utf8Valid rest2
      | _ => false
    else if b = 240 then
      match rest with
      | c1 :: c2 :: c3 :: rest2 =>
        decide (144 ≤ c1 ∧ c1 ≤ 191) && isCont c2 && isCont c3 && utf8Valid rest2
      | _ => false
    else if 241 ≤ b ∧ b ≤ 243 then
      match rest with
      | c1 :: c2 :: c3 :: rest2 => isCont c1 && isCont c2 && isCont c3 && utf8Valid rest2
      | _ => false
    else if b = 244 then
      match rest with
      | c1 :: c2 :: c3 :: rest2 =>
        decide (128 ≤ c1 ∧ c1 ≤ 143) && isCont c2 && isCont c3 && utf8Valid rest2
      | _ => false
    else false

/-- Embedding of `int_to_str` of `app.py`: reconstructs
`(bit_length + 7) // 8` big-endian bytes and decodes them as UTF-8; the
bare `except` branch that catches a decode failure becomes `none`. -/
def int_to_str (number : ℕ) : Option (List ℕ) :=
  if utf8Valid (natToBytesBE ((bit_length number + 7) / 8) number) then
    some (natToBytesBE ((bit_length number + 7) / 8) number)
  else none

theorem str_to_int_append (l : List ℕ) (b : ℕ) :
    str_to_int (l ++ [b]) = str_to_int l * 256 + b := by
  unfold str_to_int
  rw [List.foldl_append]
  rfl

theorem str_to_int_lt (l : List ℕ) (h : ∀ b ∈ l, b < 256) :
    str_to_int l < 256 ^ l.length := by
  induction l using List.reverseRecOn with
  | nil => simp [str_to_int]
  | append_singleton l b ih =>
    rw [str_to_int_append]
    have hb : b < 256 := h b (by simp)
    have hl : str_to_int l < 256 ^ l.length := ih fun x hx => h x (by simp [hx])
    have hlen : (l ++ [b]).length = l.length + 1 := by simp
    rw [hlen, pow_succ]
    omega

theorem natToBytesBE_str_to_int (l : List ℕ) (h : ∀ b ∈ l, b < 256) :
    natToBytesBE l.length (str_to_int l) = l := by
  induction l using List.reverseRecOn with
  | nil => rfl
  | append_singleton l b ih =>
    have hb : b < 256 := h b (by simp)
    have hlen : (l ++ [b]).length = l.length + 1 := by simp
    rw [hlen, str_to_int_append, natToBytesBE]
    have hdiv : (str_to_int l * 256 + b) / 256 = str_to_int l := by omega
    have hmod : (str_to_int l * 256 + b) % 256 = b := by omega
    rw [hdiv, hmod, ih fun x hx => h x (by simp [hx])]

theorem str_to_int_cons (b : ℕ) (l : List ℕ) :
    str_to_int (b :: l) = b * 256 ^ l.length + str_to_int l := by
  induction l using List.reverseRecOn with
  | nil => simp [str_to_int]
  | append_singleton l c ih =>
    have : b :: (l ++ [c]) = (b :: l) ++ [c] := by simp
    rw [this, str_to_int_append, ih, str_to_int_append]
    have hlen : (l ++ [c]).length = l.length + 1 := by simp
    rw [hlen, pow_succ]
    ring

/-- Round trip of the codec of `app.py` for every byte string that does not
start with a zero byte: the encoded integer decodes back to the original
bytes. -/
theorem int_to_str_roundtrip (bs : List ℕ) (hb : ∀ b ∈ bs, b < 256)
    (hv : utf8Valid bs = true) (hh : bs.head? ≠ some 0) :
    int_to_str (str_to_int bs) = some bs := by
  cases bs with
  | nil => rfl
  | cons b l =>
    have hb0 : b ≠ 0 := by simpa using hh
    have hlt : str_to_int (b :: l) < 256 ^ (l.length + 1) := by
      have := str_to_int_lt (b :: l) hb
      simpa using this
    have hge : 256 ^ l.length ≤ str_to_int (b :: l) := by
      rw [str_to_int_cons]
      have h1 : 1 * 256 ^ l.length ≤ b * 256 ^ l.length :=
        Nat.mul_le_mul_right _ (by omega)
      omega
    have hpow : (0:ℕ) < 256 ^ l.length := Nat.pos_pow_of_pos _ (by omega)
    have hv0 : str_to_int (b :: l) ≠ 0 := by omega
    obtain ⟨hA, hB1⟩ := bit_length_le _ hv0
    have hC := bit_length_lt (str_to_int (b :: l))
    have h256 : (256:ℕ) = 2 ^ 8 := by norm_num
    have hup : bit_length (str_to_int (b :: l)) ≤ 8 * (l.length + 1) := by
      by_contra hcon
      push_neg at hcon
      have hmono : 2 ^ (8 * (l.length + 1)) ≤ 2 ^ (bit_length (str_to_int (b :: l)) - 1) :=
        Nat.pow_le_pow_right (by omega) (by omega)
      rw [h256, ← pow_mul] at hlt
      omega
    have hlo : 8 * l.length < bit_length (str_to_int (b :: l)) := by
      by_contra hcon
      push_neg at hcon
      have hmono : 2 ^ bit_length (str_to_int (b :: l)) ≤ 2 ^ (8 * l.length) :=
        Nat.pow_le_pow_right (by omega) hcon
      rw [h256, ← pow_mul] at hge
      omega
    have hlen : (bit_length (str_to_int (b :: l)) + 7) / 8 = l.length + 1 := by omega
    have hrec := natToBytesBE_str_to_int (b :: l) hb
    rw [List.length_cons] at hrec
    unfold int_to_str
    rw [hlen, hrec, if_pos hv]

/-- State of the `Commissaire` class of `app.py`: the set of valid primary
codes `N1` and the set of committed hashes of the secondary codes `N2`.
Python sets of strings are embedded as finsets of byte lists. -/
structure Commissaire where
  valid_n1 : Finset (List ℕ)
  hashed_n2 : Finset (List ℕ)

/-- Embedding of `Commissaire.charger_listes`: replaces both sets wholesale. -/
def charger_listes (_c : Commissaire) (liste_n1 liste_hashed_n2 : List (List ℕ)) :
    Commissaire :=
  ⟨liste_n1.toFinset, liste_hashed_n2.toFinset⟩

/-- Embedding of `Commissaire.verifier_n1`: pure membership test. -/
def verifier_n1 (c : Commissaire) (n1 : List ℕ) : Bool := decide (n1 ∈ c.valid_n1)

/-- Embedding of `Commissaire.consommer_n1`: if the token is present it is
removed and `True` is returned, otherwise `False` with no state change; the
updated registry is the second component. -/
def consommer_n1 (c : Commissaire) (n1 : List ℕ) : Bool × Commissaire :=
  if n1 ∈ c.valid_n1 then (true, ⟨c.valid_n1.erase n1, c.hashed_n2⟩)
  else (false, c)

/-- Embedding of `Commissaire.verifier_n2_hash`, parameterized by the hash
function (`hash_sha256` in the source, a fixed pure function of its input);
the method only reads the registry, which is returned unchanged. -/
def verifier_n2_hash (hash : List ℕ → List ℕ) (c : Commissaire) (n2_clear : List ℕ) :
    Bool × Commissaire :=
  (decide (hash n2_clear ∈ c.hashed_n2), c)

/-- Embedding of `Administrateur.signer_aveugle`: `pow(blinded, d, n)` with
the Administrateur private key `(d, n)`. -/
def signer_aveugle (private_key : ℕ × ℕ) (blinded_message_int : ℕ) : ℕ :=
  powMod blinded_message_int private_key.1 private_key.2

/-- State of the `Anonymiseur` class of `app.py`: the ballot box, a list of
envelopes `(encrypted_message, encrypted_signature)`. -/
structure Anonymiseur where
  urne : List (ℕ × ℕ)

/-- Embedding of `Anonymiseur.recevoir_vote`: consume `N1` through the
Commissaire and append the encrypted ballot to the box on success. -/
def recevoir_vote (c : Commissaire) (a : Anonymiseur) (n1 : List ℕ)
    (vote_chiffre : ℕ × ℕ) : Bool × Commissaire × Anonymiseur :=
  match consommer_n1 c n1 with
  | (true, c2) => (true, c2, ⟨a.urne ++ [vote_chiffre]⟩)
  | (false, c2) => (false, c2, a)

/-- State of the `Decompteur` class of `app.py`.  The Python `resultats`
field holds `dict(Counter(bulletins_valides))`; it is embedded as the
underlying list of validated choices, a dict entry being the multiplicity
`countOcc` of the choice in that list. -/
structure Decompteur where
  public_key : ℕ × ℕ
  private_key : ℕ × ℕ
  resultats : List (List ℕ)

/-- Multiplicity of a choice in the tally, i.e. the count that the Python
result dict associates to the choice. -/
def countOcc (l : List (List ℕ)) (c : List ℕ) : ℕ := (l.filter fun x => x == c).length

/-- Embedding of Python `message.split("||")` on UTF-8 bytes: splits at each
non-overlapping, left-to-right occurrence of the two-byte separator
(bytes 124, 124).  The first argument accumulates the current chunk in
reverse. -/
def splitSep : List ℕ → List ℕ → List (List ℕ)
  | acc, 124 :: 124 :: rest => acc.reverse :: splitSep [] rest
  | acc, b :: rest => splitSep (b :: acc) rest
  | acc, [] => [acc.reverse]

/-- Per-envelope outcome recorded by `depouiller` in its `logs` list.  The
source appends exactly one formatted log string per envelope; each
constructor corresponds to one of the five messages and carries the data
interpolated into it. -/
inductive BallotLog where
  | undecodable : BallotLog
  | malformed : BallotLog
  | forged : List ℕ → BallotLog
  | invalidN2 : List ℕ → BallotLog
  | accepted : List ℕ → BallotLog
deriving DecidableEq

/-- Body of the `depouiller` loop of `app.py` for one envelope: decrypt both
components with the Decompteur private key, decode the message, split on the
separator, verify the Administrateur signature, verify `N2` with the
Commissaire.  Every branch of the source appends one log entry and
continues with the next envelope, so the body is a total function returning
the outcome together with the Commissaire it interacted with. -/
def classifier (hash : List ℕ → List ℕ) (private_key admin_pub_key : ℕ × ℕ)
    (c : Commissaire) (enveloppe : ℕ × ℕ) : BallotLog × Commissaire :=
  let m_int := powMod enveloppe.1 private_key.1 private_key.2
  let s_int := powMod enveloppe.2 private_key.1 private_key.2
  match int_to_str m_int with
  | none => (.undecodable, c)
  | some message_clair =>
    if message_clair = [] then (.undecodable, c)
    else
      match splitSep [] message_clair with
      | [choix_vote, n2_code, _alea] =>
        if powMod s_int admin_pub_key.1 admin_pub_key.2 ≠ m_int then (.forged n2_code, c)
        else
          match verifier_n2_hash hash c n2_code with
          | (ok, c2) => if ok then (.accepted choix_vote, c2) else (.invalidN2 n2_code, c2)
      | _ => (.malformed, c)

/-- Loop of `depouiller`: walks the ballot box accumulating the validated
choices and the log entries, threading the Commissaire through each
interaction. -/
def depouillerLoop (hash : List ℕ → List ℕ) (private_key admin_pub_key : ℕ × ℕ) :
    Commissaire → List (ℕ × ℕ) → List (List ℕ) × List BallotLog × Commissaire
  | c, [] => ([], [], c)
  | c, env :: rest =>
    match classifier hash private_key admin_pub_key c env with
    | (outcome, c1) =>
      match depouillerLoop hash private_key admin_pub_key c1 rest with
      | (vs, ls, c2) =>
        (match outcome with
         | .accepted choix => choix :: vs
         | _ => vs,
         outcome :: ls, c2)

/-- Return value and post-state of one `depouiller` run: the returned pair
`(resultats, logs)` of the source together with the post-state of the three
entities involved. -/
structure DepouillerResult where
  resultats : List (List ℕ)
  logs : List BallotLog
  dec : Decompteur
  anon : Anonymiseur
  comm : Commissaire

/-- Embedding of `Decompteur.depouiller` of `app.py`.  The loop walks
`anonymiseur.urne` read-only; the only assignment to entity state in the
source is `self.resultats = dict(Counter(bulletins_valides))` at the end. -/
def depouiller (hash : List ℕ → List ℕ) (dec : Decompteur) (anonymiseur : Anonymiseur)
    (admin_pub_key : ℕ × ℕ) (c : Commissaire) : DepouillerResult :=
  match depouillerLoop hash dec.private_key admin_pub_key c anonymiseur.urne with
  | (vs, ls, c2) => ⟨vs, ls, { dec with resultats := vs }, anonymiseur, c2⟩

/-- Outcome of the `submit_vote` route of `app.py` (the voting client). -/
inductive SubmitResult where
  | errEligibilite : SubmitResult
  | errSignature : SubmitResult
  | errDepot : SubmitResult
  | ok : SubmitResult
deriving DecidableEq

/-- Ballot plaintext `f"{choix}||{n2}||{salt}"` as UTF-8 bytes. -/
def ballot_message (choix n2 salt : List ℕ) : List ℕ :=
  choix ++ [124, 124] ++ n2 ++ [124, 124] ++ salt

/-- Embedding of the `submit_vote` route of `app.py` as a function of the
request data and of the random draws made along the way: the nonce `salt`
and the blinding factor `k` (drawn from `randrange(2, n_admin - 1)` until
`gcd(k, n_admin) == 1`).  The flow is: eligibility check, blinding, blind
signature, unblinding, local signature self-check (abort on mismatch),
double encryption for the Decompteur, deposit through the Anonymiseur. -/
def submit_vote (c : Commissaire) (a : Anonymiseur)
    (admin_public_key admin_private_key teller_public_key : ℕ × ℕ)
    (n1 n2 choix salt : List ℕ) (k : ℕ) : SubmitResult × Commissaire × Anonymiseur :=
  if verifier_n1 c n1 = false then (.errEligibilite, c, a)
  else
    let m_int := str_to_int (ballot_message choix n2 salt)
    let blind_factor := powMod k admin_public_key.1 admin_public_key.2
    let m_prime := m_int * blind_factor % admin_public_key.2
    let s_prime := signer_aveugle admin_private_key m_prime
    let k_inv := modinv k admin_public_key.2
    let signature := s_prime * k_inv % admin_public_key.2
    if powMod signature admin_public_key.1 admin_public_key.2 ≠ m_int then
      (.errSignature, c, a)
    else
      match recevoir_vote c a n1
          (powMod m_int teller_public_key.1 teller_public_key.2,
           powMod signature teller_public_key.1 teller_public_key.2) with
      | (true, c2, a2) => (.ok, c2, a2)
      | (false, c2, a2) => (.errDepot, c2, a2)

/-- Outcome component of the loop body, a pure function of the fixed key
material, registry and the single envelope. -/
def classifierLog (hash : List ℕ → List ℕ) (private_key admin_pub_key : ℕ × ℕ)
    (c : Commissaire) (enveloppe : ℕ × ℕ) : BallotLog :=
  (classifier hash private_key admin_pub_key c enveloppe).1

/-- Choice extracted from an accepted log entry. -/
def acceptedChoice : BallotLog → Option (List ℕ)
  | .accepted ch => some ch
  | _ => none

theorem powMod_lt (b e : ℕ) {m : ℕ} (h : 0 < m) : powMod b e m < m := Nat.mod_lt _ h

theorem classifier_comm (hash : List ℕ → List ℕ) (pk ap : ℕ × ℕ) (c : Commissaire)
    (env : ℕ × ℕ) : (classifier hash pk ap c env).2 = c := by
  simp only [classifier, verifier_n2_hash]
  repeat' split
  all_goals rfl

theorem classifier_eta (hash : List ℕ → List ℕ) (pk ap : ℕ × ℕ) (c : Commissaire)
    (env : ℕ × ℕ) : classifier hash pk ap c env = (classifierLog hash pk ap c env, c) := by
  have h := classifier_comm hash pk ap c env
  unfold classifierLog
  rcases hcl : classifier hash pk ap c env with ⟨lg, c2⟩
  rw [hcl] at h
  dsimp only at h ⊢
  rw [h]

theorem depouillerLoop_comm (hash : List ℕ → List ℕ) (pk ap : ℕ × ℕ) (c : Commissaire)
    (l : List (ℕ × ℕ)) : (depouillerLoop hash pk ap c l).2.2 = c := by
  induction l generalizing c with
  | nil => rfl
  | cons env rest ih =>
    rcases hloop : depouillerLoop hash pk ap c rest with ⟨vs, ls, c2⟩
    rw [depouillerLoop, classifier_eta]
    dsimp only
    rw [hloop]
    dsimp only
    have h2 := ih c
    rw [hloop] at h2
    exact h2

theorem depouillerLoop_logs (hash : List ℕ → List ℕ) (pk ap : ℕ × ℕ) (c : Commissaire)
    (l : List (ℕ × ℕ)) :
    (depouillerLoop hash pk ap c l).2.1 = l.map (classifierLog hash pk ap c) := by
  induction l generalizing c with
  | nil => rfl
  | cons env rest ih =>
    rcases hloop : depouillerLoop hash pk ap c rest with ⟨vs, ls, c2⟩
    rw [depouillerLoop, classifier_eta]
    dsimp only
    rw [hloop]
    dsimp only
    have h2 := ih c
    rw [hloop] at h2
    dsimp only at h2
    rw [List.map_cons, h2]

theorem depouillerLoop_resultats (hash : List ℕ → List ℕ) (pk ap : ℕ × ℕ)
    (c : Commissaire) (l : List (ℕ × ℕ)) :
    (depouillerLoop hash pk ap c l).1 =
      ((depouillerLoop hash pk ap c l).2.1).filterMap acceptedChoice := by
  induction l generalizing c with
  | nil => rfl
  | cons env rest ih =>
    rcases hloop : depouillerLoop hash pk ap c rest with ⟨vs, ls, c2⟩
    rw [depouillerLoop, classifier_eta]
    dsimp only
    rw [hloop]
    dsimp only
    have h2 := ih c
    rw [hloop] at h2
    dsimp only at h2
    rw [List.filterMap_cons]
    rcases classifierLog hash pk ap c env with _ | _ | n2c | n2c | ch <;>
      simp [acceptedChoice, h2]

theorem countOcc_cons (x : List ℕ) (l : List (List ℕ)) (c : List ℕ) :
    countOcc (x :: l) c = (if x == c then 1 else 0) + countOcc l c := by
  rw [countOcc, countOcc, List.filter_cons]
  split
  · rw [List.length_cons]; omega
  · omega

theorem countOcc_filterMap (ls : List BallotLog) (ch : List ℕ) :
    countOcc (ls.filterMap acceptedChoice) ch =
      (ls.filter fun o => o == BallotLog.accepted ch).length := by
  induction ls with
  | nil => rfl
  | cons o rest ih =>
    rw [List.filterMap_cons, List.filter_cons]
    cases o with
    | accepted a =>
      by_cases h : a = ch
      · subst h
        simp only [acceptedChoice]
        rw [countOcc_cons]
        simp [ih]
        omega
      · simp only [acceptedChoice]
        rw [countOcc_cons]
        simp [h, ih]
    | undecodable => simpa [acceptedChoice] using ih
    | malformed => simpa [acceptedChoice] using ih
    | forged n2c => simpa [acceptedChoice] using ih
    | invalidN2 n2c => simpa [acceptedChoice] using ih

theorem depouiller_eq (hash : List ℕ → List ℕ) (dec : Decompteur) (anon : Anonymiseur)
    (ap : ℕ × ℕ) (c : Commissaire) :
    depouiller hash dec anon ap c =
      ⟨(depouillerLoop hash dec.private_key ap c anon.urne).1,
       (depouillerLoop hash dec.private_key ap c anon.urne).2.1,
       { dec with resultats := (depouillerLoop hash dec.private_key ap c anon.urne).1 },
       anon, (depouillerLoop hash dec.private_key ap c anon.urne).2.2⟩ := by
  rw [depouiller]

/-- Claim C3: one-time consumption of primary tokens.  For a token present
in `valid_n1`, `consommer_n1` returns true and removes exactly that token,
leaving `hashed_n2` untouched; a second call with the same token returns
false and leaves the registry unchanged; for an absent token it returns
false with no side effect. -/
theorem claim_C3 (c : Commissaire) (t : List ℕ) :
    (t ∈ c.valid_n1 →
      consommer_n1 c t = (true, ⟨c.valid_n1.erase t, c.hashed_n2⟩) ∧
      (consommer_n1 c t).2.hashed_n2 = c.hashed_n2 ∧
      consommer_n1 (consommer_n1 c t).2 t = (false, (consommer_n1 c t).2)) ∧
    (t ∉ c.valid_n1 → consommer_n1 c t = (false, c)) := by
  constructor
  · intro h
    have h1 : consommer_n1 c t = (true, ⟨c.valid_n1.erase t, c.hashed_n2⟩) := by
      rw [consommer_n1, if_pos h]
    refine ⟨h1, by rw [h1], ?_⟩
    rw [h1, consommer_n1, if_neg (by simp)]
  · intro h
    rw [consommer_n1, if_neg h]

/-- Witness for C3 at a concrete registry holding the single token `"A"`. -/
theorem claim_C3_witness :
    consommer_n1 ⟨{[65]}, {[66]}⟩ [65] =
      (true, ⟨({[65]} : Finset (List ℕ)).erase [65], {[66]}⟩) ∧
    consommer_n1 (consommer_n1 ⟨{[65]}, {[66]}⟩ [65]).2 [65] =
      (false, (consommer_n1 ⟨{[65]}, {[66]}⟩ [65]).2) :=
  ⟨((claim_C3 ⟨{[65]}, {[66]}⟩ [65]).1 (by simp)).1,
   ((claim_C3 ⟨{[65]}, {[66]}⟩ [65]).1 (by simp)).2.2⟩

/-- Claim C9: frame property of tallying.  A `depouiller` run leaves the
ballot box and the whole Commissaire state unchanged, and the only
Decompteur field it writes is `resultats`, replaced wholesale by the new
tally. -/
theorem claim_C9 (hash : List ℕ → List ℕ) (dec : Decompteur) (anon : Anonymiseur)
    (ap : ℕ × ℕ) (c : Commissaire) :
    (depouiller hash dec anon ap c).anon = anon ∧
    (depouiller hash dec anon ap c).comm = c ∧
    (depouiller hash dec anon ap c).dec =
      { dec with resultats := (depouiller hash dec anon ap c).resultats } := by
  simp [depouiller_eq, depouillerLoop_comm]

/-- Claim C4: tally idempotence.  Running `depouiller` a second time from
the post-state of a first run, with no intervening deposit, yields the same
count for every choice. -/
theorem claim_C4 (hash : List ℕ → List ℕ) (dec : Decompteur) (anon : Anonymiseur)
    (ap : ℕ × ℕ) (c : Commissaire) (choice : List ℕ) :
    countOcc (depouiller hash (depouiller hash dec anon ap c).dec
        (depouiller hash dec anon ap c).anon ap
        (depouiller hash dec anon ap c).comm).resultats choice =
      countOcc (depouiller hash dec anon ap c).resultats choice := by
  simp [depouiller_eq, depouillerLoop_comm]

/-- Claim C5: per-ballot error isolation.  The tally loop examines every
envelope of the box: the log has exactly one entry per envelope, each entry
is a function of that envelope alone (together with the fixed keys and
registry), and the final count of every choice equals the number of
envelopes individually classified as accepted with that choice; no envelope
can abort the processing of the others. -/
theorem claim_C5 (hash : List ℕ → List ℕ) (dec : Decompteur) (anon : Anonymiseur)
    (ap : ℕ × ℕ) (c : Commissaire) :
    (depouiller hash dec anon ap c).logs.length = anon.urne.length ∧
    (depouiller hash dec anon ap c).logs =
      anon.urne.map (classifierLog hash dec.private_key ap c) ∧
    ∀ choice, countOcc (depouiller hash dec anon ap c).resultats choice =
      ((depouiller hash dec anon ap c).logs.filter
        fun o => o == BallotLog.accepted choice).length := by
  refine ⟨?_, ?_, ?_⟩
  · simp [depouiller_eq, depouillerLoop_logs]
  · simp [depouiller_eq, depouillerLoop_logs]
  · intro choice
    rw [depouiller_eq]
    simp only
    rw [depouillerLoop_resultats, countOcc_filterMap]

/-- Claim C10: oversize-ballot guard in `submit_vote`.  When the encoded
ballot integer is at least the Administrateur modulus, the local self-check
necessarily fails (the recovered value is reduced modulo the modulus), so
the route aborts with the critical signature error and deposits nothing;
consequently any run that does extend the ballot box used a message integer
strictly below the modulus. -/
theorem claim_C10 (c : Commissaire) (a : Anonymiseur)
    (admin_public_key admin_private_key teller_public_key : ℕ × ℕ)
    (n1 n2 choix salt : List ℕ) (k : ℕ) (hn : 0 < admin_public_key.2) :
    (admin_public_key.2 ≤ str_to_int (ballot_message choix n2 salt) →
      (submit_vote c a admin_public_key admin_private_key teller_public_key
          n1 n2 choix salt k).2.1 = c ∧
      (submit_vote c a admin_public_key admin_private_key teller_public_key
          n1 n2 choix salt k).2.2 = a ∧
      (verifier_n1 c n1 = true →
        (submit_vote c a admin_public_key admin_private_key teller_public_key
            n1 n2 choix salt k).1 = SubmitResult.errSignature)) ∧
    ((submit_vote c a admin_public_key admin_private_key teller_public_key
        n1 n2 choix salt k).2.2.urne ≠ a.urne →
      str_to_int (ballot_message choix n2 salt) < admin_public_key.2) := by
  have hbranch : admin_public_key.2 ≤ str_to_int (ballot_message choix n2 salt) →
      submit_vote c a admin_public_key admin_private_key teller_public_key
          n1 n2 choix salt k =
        if verifier_n1 c n1 = false then (.errEligibilite, c, a)
        else (.errSignature, c, a) := by
    intro hcond
    simp only [submit_vote]
    split
    · rfl
    · rw [if_pos
        (Nat.ne_of_lt (Nat.lt_of_lt_of_le (powMod_lt _ _ hn) hcond))]
  constructor
  · intro hcond
    rw [hbranch hcond]
    by_cases hv : verifier_n1 c n1 = false
    · rw [if_pos hv]
      exact ⟨rfl, rfl, fun ht => by rw [ht] at hv; cases hv⟩
    · rw [if_neg hv]
      exact ⟨rfl, rfl, fun _ => rfl⟩
  · intro hne
    by_cases hcond : str_to_int (ballot_message choix n2 salt) < admin_public_key.2
    · exact hcond
    · exfalso
      apply hne
      rw [hbranch (by omega)]
      by_cases hv : verifier_n1 c n1 = false
      · rw [if_pos hv]
      · rw [if_neg hv]

/-- Witness for C10: a concrete registry, box, 5 as Administrateur modulus
and a three-byte ballot whose encoding is far above the modulus; the cast
aborts with the signature error. -/
theorem claim_C10_witness :
    (submit_vote ⟨{[65]}, ∅⟩ ⟨[]⟩ (3, 5) (3, 5) (3, 35)
        [65] [66] [67] [68] 2).1 = SubmitResult.errSignature :=
  ((claim_C10 ⟨{[65]}, ∅⟩ ⟨[]⟩ (3, 5) (3, 5) (3, 35) [65] [66] [67] [68] 2
      (by decide)).1 (by decide)).2.2 (by simp [verifier_n1])

/-- Claim C2 (amended): RSA round trip for every keypair that
`generate_keypair` builds from two DISTINCT primes.  For
`((e, n), (d, n)) = generate_keypair_from p q e` and any `x < n`,
decrypting the encryption of `x` returns `x`, and verifying (public
exponentiation of) the signature (private exponentiation) of `x` returns
`x`.  The distinctness hypothesis is forced by the counterexample at
`p = q`. -/
theorem claim_C2_amended (p q e x : ℕ) (hp : Nat.Prime p) (hq : Nat.Prime q)
    (hpq : p ≠ q) (he : validExponent ((p - 1) * (q - 1)) e) (hx : x < p * q) :
    powMod (powMod x (generate_keypair_from p q e).1.1 (generate_keypair_from p q e).1.2)
        (generate_keypair_from p q e).2.1 (generate_keypair_from p q e).2.2 = x ∧
    powMod (powMod x (generate_keypair_from p q e).2.1 (generate_keypair_from p q e).2.2)
        (generate_keypair_from p q e).1.1 (generate_keypair_from p q e).1.2 = x := by
  show powMod (powMod x e (p * q)) (modinv e ((p - 1) * (q - 1))) (p * q) = x ∧
    powMod (powMod x (modinv e ((p - 1) * (q - 1))) (p * q)) e (p * q) = x
  have hed := keypair_ed hp hq hpq he
  constructor
  · have h := rsa_pow p q e (modinv e ((p - 1) * (q - 1))) x hp hq hpq hed
    unfold powMod
    rw [← Nat.pow_mod, ← pow_mul]
    unfold Nat.ModEq at h
    rw [h, Nat.mod_eq_of_lt hx]
  · have hed2 : modinv e ((p - 1) * (q - 1)) * e % ((p - 1) * (q - 1)) = 1 := by
      rw [mul_comm]; exact hed
    have h := rsa_pow p q (modinv e ((p - 1) * (q - 1))) e x hp hq hpq hed2
    unfold powMod
    rw [← Nat.pow_mod, ← pow_mul]
    unfold Nat.ModEq at h
    rw [h, Nat.mod_eq_of_lt hx]

/-- Witness for the amended C2 at the concrete keypair generated from the
distinct primes 3 and 5 with message 7. -/
theorem claim_C2_witness :
    powMod (powMod 7 (generate_keypair_from 3 5 65537).1.1 (generate_keypair_from 3 5 65537).1.2)
        (generate_keypair_from 3 5 65537).2.1 (generate_keypair_from 3 5 65537).2.2 = 7 ∧
    powMod (powMod 7 (generate_keypair_from 3 5 65537).2.1 (generate_keypair_from 3 5 65537).2.2)
        (generate_keypair_from 3 5 65537).1.1 (generate_keypair_from 3 5 65537).1.2 = 7 :=
  claim_C2_amended 3 5 65537 7 (by norm_num) (by norm_num) (by decide)
    (Or.inl ⟨by decide, rfl⟩) (by decide)

/-- Counterexample to claim C2 as stated: `generate_keypair(1024)` can
return the degenerate keypair `((65537, 9), (1, 9))` built from the equal
prime draws `p = q = 3`, and for `x = 3 < 9` decrypting the encryption
yields 0, not 3. -/
theorem claim_C2_counterexample :
    IsKeypairOutput 1024 ((65537, 9), (1, 9)) ∧ 3 < 9 ∧
    powMod (powMod 3 65537 9) 1 9 ≠ 3 := by
  refine ⟨⟨3, 3, 65537, ⟨⟨3, by decide, by decide, Or.inr (Or.inl rfl)⟩,
      ⟨3, by decide, by decide, Or.inr (Or.inl rfl)⟩, Or.inl ⟨by decide, rfl⟩⟩, by decide⟩,
    by decide, by decide⟩

/-- Claim C1 (amended): blind-signature round trip for every keypair that
`generate_keypair` builds from two DISTINCT primes.  Blinding `m` with
factor `k` coprime to the modulus, signing blindly with `signer_aveugle`
under the private key, and unblinding with `modinv k n`, the result
verifies back to the original message under the public key.  The
distinctness hypothesis is forced by the counterexample at `p = q`. -/
theorem claim_C1_amended (p q e k m : ℕ) (hp : Nat.Prime p) (hq : Nat.Prime q)
    (hpq : p ≠ q) (he : validExponent ((p - 1) * (q - 1)) e) (hm : m < p * q)
    (hk1 : 2 ≤ k) (hk2 : k ≤ p * q - 2) (hk : gcd k (p * q) = 1) :
    powMod (signer_aveugle (generate_keypair_from p q e).2
        (m * powMod k e (p * q) % (p * q)) * modinv k (p * q) % (p * q)) e (p * q) = m := by
  have hed := keypair_ed hp hq hpq he
  have h4 : 2 * 2 ≤ p * q := Nat.mul_le_mul hp.two_le hq.two_le
  have hn1 : 1 < p * q := by omega
  have hkg : Nat.gcd k (p * q) = 1 := by rw [← gcd_eq_gcd]; exact hk
  obtain ⟨hkinv, _⟩ := modinv_spec hn1 hkg
  set n := p * q with hn
  set d := modinv e ((p - 1) * (q - 1)) with hd
  set kinv := modinv k n with hkv
  set S := signer_aveugle (generate_keypair_from p q e).2 (m * powMod k e n % n) with hS
  have hked : k ^ (e * d) ≡ k [MOD n] := rsa_pow p q e d k hp hq hpq hed
  have hmed : m ^ (d * e) ≡ m [MOD n] :=
    rsa_pow p q d e m hp hq hpq (by rw [mul_comm]; exact hed)
  have hkinv1 : k * kinv ≡ 1 [MOD n] := by
    show k * kinv % n = 1 % n
    rw [hkinv, Nat.mod_eq_of_lt hn1]
  have h1 : m * powMod k e n % n ≡ m * k ^ e [MOD n] := by
    calc m * powMod k e n % n
        ≡ m * powMod k e n [MOD n] := Nat.mod_modEq _ n
      _ ≡ m * k ^ e [MOD n] := Nat.ModEq.mul_left m (Nat.mod_modEq _ n)
  have h2 : S ≡ (m * k ^ e) ^ d [MOD n] := by
    rw [hS]
    calc signer_aveugle (generate_keypair_from p q e).2 (m * powMod k e n % n)
        ≡ (m * powMod k e n % n) ^ d [MOD n] := Nat.mod_modEq _ n
      _ ≡ (m * k ^ e) ^ d [MOD n] := h1.pow d
  have hs : S * kinv % n ≡ m ^ d [MOD n] := by
    calc S * kinv % n
        ≡ S * kinv [MOD n] := Nat.mod_modEq _ n
      _ ≡ (m * k ^ e) ^ d * kinv [MOD n] := Nat.ModEq.mul_right kinv h2
      _ = m ^ d * k ^ (e * d) * kinv := by rw [mul_pow, ← pow_mul]
      _ ≡ m ^ d * k * kinv [MOD n] := Nat.ModEq.mul_right kinv (Nat.ModEq.mul_left _ hked)
      _ = m ^ d * (k * kinv) := by ring
      _ ≡ m ^ d * 1 [MOD n] := Nat.ModEq.mul_left _ hkinv1
      _ = m ^ d := mul_one _
  have hfin : (S * kinv % n) ^ e ≡ m [MOD n] := by
    calc (S * kinv % n) ^ e
        ≡ (m ^ d) ^ e [MOD n] := hs.pow e
      _ = m ^ (d * e) := by rw [← pow_mul]
      _ ≡ m [MOD n] := hmed
  show (S * kinv % n) ^ e % n = m
  unfold Nat.ModEq at hfin
  rw [hfin, Nat.mod_eq_of_lt hm]

/-- Witness for the amended C1 at the keypair generated from the distinct
primes 3 and 5, message 7 and blinding factor 2. -/
theorem claim_C1_witness :
    powMod (signer_aveugle (generate_keypair_from 3 5 65537).2
        (7 * powMod 2 65537 (3 * 5) % (3 * 5)) * modinv 2 (3 * 5) % (3 * 5)) 65537 (3 * 5) = 7 :=
  claim_C1_amended 3 5 65537 2 7 (by norm_num) (by norm_num) (by decide)
    (Or.inl ⟨by decide, rfl⟩) (by decide) (by decide) (by decide) (by decide)

/-- Counterexample to claim C1 as stated: with the degenerate keypair
`((65537, 9), (1, 9))` that `generate_keypair(1024)` can return from the
equal prime draws `p = q = 3`, message 3 and blinding factor 2 (within
bounds and coprime to the modulus 9), the unblinded signature does NOT
verify back to the message. -/
theorem claim_C1_counterexample :
    IsKeypairOutput 1024 ((65537, 9), (1, 9)) ∧
    3 < 9 ∧ 2 ≤ 2 ∧ 2 ≤ 9 - 2 ∧ gcd 2 9 = 1 ∧
    powMod (signer_aveugle (1, 9) (3 * powMod 2 65537 9 % 9) * modinv 2 9 % 9) 65537 9 ≠ 3 := by
  refine ⟨⟨3, 3, 65537, ⟨⟨3, by decide, by decide, Or.inr (Or.inl rfl)⟩,
      ⟨3, by decide, by decide, Or.inr (Or.inl rfl)⟩, Or.inl ⟨by decide, rfl⟩⟩, by decide⟩,
    by decide, by decide, by decide, by decide, by decide⟩

/-- Claim C6 is violated by the code (code bug): `generate_large_prime(512)`
can return 3, because the draw `num = 3` of `secrets.randbits(512)` is odd
and passes the deterministic `n == 3` branch of `is_prime`; 3 has bit
length 2, not 512.  The source never sets the top bit of the draw, contrary
to its own docstring and to the spec. -/
theorem claim_C6_code_behavior :
    IsGenerateLargePrimeOutput 512 3 ∧ bit_length 3 = 2 ∧ bit_length 3 ≠ 512 :=
  ⟨⟨3, by decide, by decide, Or.inr (Or.inl rfl)⟩, by decide, by decide⟩

/-- Claim C7 is violated by the code (code bug): `generate_keypair` has no
`p == q` check at all, so the equal prime draws `p = q = 3` are silently
accepted and the keypair `((65537, 9), (1, 9))` is returned without error,
even though it is cryptographically broken (encrypting 6 and decrypting
yields 0, not 6). -/
theorem claim_C7_code_behavior :
    ValidDraws 1024 3 3 65537 ∧
    generate_keypair_from 3 3 65537 = ((65537, 9), (1, 9)) ∧
    powMod (powMod 6 65537 9) 1 9 ≠ 6 :=
  ⟨⟨⟨3, by decide, by decide, Or.inr (Or.inl rfl)⟩,
    ⟨3, by decide, by decide, Or.inr (Or.inl rfl)⟩, Or.inl ⟨by decide, rfl⟩⟩,
   by decide, by decide⟩

/-- Counterexample to claim C8 as stated: the one-byte payload consisting
of the NUL character is a valid text payload, but its encoded integer is 0,
which decodes back to the empty byte string, not to the original payload. -/
theorem claim_C8_counterexample :
    (∀ b ∈ [(0 : ℕ)], b < 256) ∧ utf8Valid [0] = true ∧
    int_to_str (str_to_int [0]) = some [] ∧ int_to_str (str_to_int [0]) ≠ some [0] :=
  ⟨by decide, by decide, by decide, by decide⟩

/-- Claim C8 (amended): codec reversibility holds for every text payload
whose UTF-8 byte encoding does not start with a zero byte (the empty
payload included); and for every integer whose reconstructed bytes are not
valid UTF-8, `int_to_str` returns the explicit error value `none` instead
of failing.  The leading-byte restriction is forced by the counterexample
on the NUL payload. -/
theorem claim_C8_amended :
    (∀ bs : List ℕ, (∀ b ∈ bs, b < 256) → utf8Valid bs = true → bs.head? ≠ some 0 →
      int_to_str (str_to_int bs) = some bs) ∧
    (∀ x : ℕ, utf8Valid (natToBytesBE ((bit_length x + 7) / 8) x) = false →
      int_to_str x = none) := by
  constructor
  · exact fun bs hb hv hh => int_to_str_roundtrip bs hb hv hh
  · intro x hx
    rw [int_to_str, if_neg (by simp [hx])]

/-- Witness for the amended C8: the two-byte payload `"hi"` round-trips,
and the integer 255 reconstructs the invalid byte string `[255]` and is
rejected with `none`. -/
theorem claim_C8_witness :
    int_to_str (str_to_int [104, 105]) = some [104, 105] ∧ int_to_str 255 = none :=
  ⟨claim_C8_amended.1 [104, 105] (by decide) (by decide) (by decide),
   claim_C8_amended.2 255 (by decide)⟩

end VoteElec
